import Mathlib

/-!
Verification development for the FIR reporting portal
(`app.py`, `api/app.py`).

Python strings are modeled as Lean `String`s, with the Python string
operations used by the portal (`in`, `split`, `replace`, `strip`,
`join`, `textwrap.wrap`, the `re.sub` long-token pass) implemented
faithfully over the underlying character lists.  Fallible calls to the
remote generative-language service are modeled as an oracle function
returning either an exception marker or a response object; the
response object carries the optional `.text` attribute and the
`str(response)` rendering that `analyze_fir` consults.
-/

namespace FirPortal

/-! ### Python string primitives (on character lists) -/

/-- Characters Python treats as whitespace in `str.strip`, `\s`, and
`textwrap` (ASCII fragment: space, tab, newline, CR, vertical tab, form
feed). -/
def pyIsSpace (c : Char) : Bool :=
  c = ' ' || c = '\t' || c = '\n' || c = '\r' || c = '\x0b' || c = '\x0c'

/-- Boolean test that `l` is a prefix of `s`. -/
def isPre : List Char → List Char → Bool
  | [], _ => true
  | _ :: _, [] => false
  | a :: as, b :: bs => a = b && isPre as bs

/-- Index of the first occurrence of `sep` in `s` (Python `str.find`),
`none` when `sep` does not occur. -/
def findSub (sep : List Char) : List Char → Option Nat
  | [] => if sep.isEmpty then some 0 else none
  | c :: t => if isPre sep (c :: t) then some 0 else (findSub sep t).map (· + 1)

/-- Fuel-driven worker for Python `str.split(sep)`; the fuel is always
instantiated with more than the length of the subject string, which
suffices because every separator occurrence consumes at least one
character. -/
def pySplitF (sep : List Char) : Nat → List Char → List (List Char)
  | 0, s => [s]
  | fuel + 1, s =>
    match findSub sep s with
    | none => [s]
    | some i => s.take i :: pySplitF sep fuel (s.drop (i + sep.length))

/-- Python `s.split(sep)` on character lists (for a non-empty `sep`). -/
def pySplitL (sep s : List Char) : List (List Char) :=
  pySplitF sep (s.length + 1) s

/-- Fuel-driven worker for Python `str.replace(old, new)`. -/
def pyReplaceF (old new : List Char) : Nat → List Char → List Char
  | 0, s => s
  | fuel + 1, s =>
    match findSub old s with
    | none => s
    | some i => s.take i ++ new ++ pyReplaceF old new fuel (s.drop (i + old.length))

/-- Python `s.replace(old, new)` on character lists (for non-empty `old`). -/
def pyReplaceL (old new s : List Char) : List Char :=
  pyReplaceF old new (s.length + 1) s

/-- Python `s.strip()` on character lists. -/
def pyStripL (s : List Char) : List Char :=
  ((s.dropWhile pyIsSpace).reverse.dropWhile pyIsSpace).reverse

/-- Python `sep.join(pieces)` on character lists. -/
def joinSep (sep : List Char) : List (List Char) → List Char
  | [] => []
  | [x] => x
  | x :: y :: rest => x ++ sep ++ joinSep sep (y :: rest)

/-! ### Python string primitives (String wrappers) -/

/-- Python `sub in s`. -/
def pyIn (sub s : String) : Bool :=
  (findSub sub.data s.data).isSome

/-- Python `s.split(sep)` for a non-empty separator. -/
def pySplit (sep s : String) : List String :=
  (pySplitL sep.data s.data).map String.mk

/-- Python `s.replace(old, new)`. -/
def pyReplace (s old new : String) : String :=
  String.mk (pyReplaceL old.data new.data s.data)

/-- Python `s.strip()`. -/
def pyStrip (s : String) : String :=
  String.mk (pyStripL s.data)

/-! ### Analysis adapter (`analyze_fir`, app.py lines 144-197) -/

/-- Model of the `google.generativeai` response object: `text?` is the
optional `.text` attribute (`getattr(response, "text", None)`), `asStr`
is the `str(response)` rendering. -/
structure GenResponse where
  text? : Option String
  asStr : String
deriving DecidableEq

/-- Outcome of one `GenerativeModel(candidate).generate_content(prompt)`
call: either a raised request-level exception or a response object. -/
inductive ServiceResult where
  | err
  | ok (resp : GenResponse)
deriving DecidableEq

/-- Result of `analyze_fir`, together with the trace of candidate models
for which a network request was issued (the source's `tried` list, which
is appended to immediately before each request). -/
structure AnalyzeOutcome where
  suggested_laws : String
  recommended_actions : String
  tried : List String
deriving DecidableEq

/-- The `(suggested_laws, recommended_actions)` pair returned to the
caller of `analyze_fir`. -/
def AnalyzeOutcome.toPair (r : AnalyzeOutcome) : String × String :=
  (r.suggested_laws, r.recommended_actions)

/-- The fixed-format instruction prompt built by `analyze_fir`
(app.py lines 149-156). -/
def fir_prompt (description : String) : String :=
  "You are a legal assistant.\nAnalyze this FIR description and provide a response that strictly adheres to the following format. Do not include any other text.\n\nDescription: \"" ++ description ++ "\"\n\nSuggested Laws: [List relevant Indian laws, sections, and short descriptions]\nRecommended Actions: [Describe detailed, actionable steps to take]\n"

/-- The exhaustion message returned after every candidate model failed
(app.py lines 192-195; the source concatenates two adjacent literals). -/
def guidance : String :=
  "Analysis failed: Could not reach a supported model. Make sure your API key is correct and the model name is available."

/-- The configured candidate-model list (app.py lines 58-65), primary
model first followed by the fixed fallbacks. -/
def FALLBACK_MODELS (default_model : String) : List String :=
  [default_model, "gemini-1.5", "gemini-1.5-pro", "gemini-1.5-preview", "gemini-1.0"]

/-- The reply-parsing cascade of `analyze_fir` applied to the effective
reply text (app.py lines 170-183): defaults, then the exact two-label
parse, then the single-`Recommended Actions:` split, then
whole-text-as-actions. -/
def parse_text (text : String) : String × String :=
  if text ≠ "" ∧ pyIn "Suggested Laws:" text ∧ pyIn "Recommended Actions:" text then
    (pyStrip ((pySplit "Recommended Actions:" ((pySplit "Suggested Laws:" text).getD 1 "")).getD 0 ""),
     pyStrip ((pySplit "Recommended Actions:" text).getD 1 ""))
  else if text ≠ "" then
    let parts := pySplit "Recommended Actions:" text
    if parts.length = 2 then
      (pyStrip (pyReplace (parts.getD 0 "") "Suggested Laws:" ""),
       pyStrip (parts.getD 1 ""))
    else
      ("See AI analysis below.", pyStrip text)
  else
    ("Analysis failed: Could not parse AI response.", "Try again later")

/-- Effective reply text and parse for one response object (app.py lines
166-183): `text = getattr(response, "text", None)`, falling back to
`str(response)` when that attribute is missing or falsy. -/
def parse_response (resp : GenResponse) : String × String :=
  let text := resp.text?.getD ""
  parse_text (if text = "" then resp.asStr else text)

/-- The candidate-model loop of `analyze_fir` (app.py lines 159-190):
falsy candidates are skipped, each remaining candidate is recorded in
`tried` and then requested once; a raised exception moves to the next
candidate, any returned response is parsed and returned immediately;
exhaustion yields the fixed `guidance` pair. -/
def analyze_loop (svc : String → String → ServiceResult) (prompt : String) :
    List String → List String → AnalyzeOutcome
  | [], tried => ⟨guidance, "Try again later", tried⟩
  | candidate :: rest, tried =>
    if candidate = "" then
      analyze_loop svc prompt rest tried
    else
      match svc candidate prompt with
      | .err => analyze_loop svc prompt rest (tried ++ [candidate])
      | .ok resp =>
        ⟨(parse_response resp).1, (parse_response resp).2, tried ++ [candidate]⟩

/-- The analysis adapter `analyze_fir(description)` (app.py lines
144-197), parameterized by the process-start credential `api_key`
(`os.getenv` result: `none` when unset), the configured candidate list,
and the remote service modeled as an oracle from (model, prompt) to a
request outcome. -/
def analyze_fir (api_key : Option String) (models : List String)
    (svc : String → String → ServiceResult) (description : String) : AnalyzeOutcome :=
  if api_key.getD "" = "" then
    ⟨"Analysis failed: API key not configured.", "Try again later", []⟩
  else
    analyze_loop svc (fir_prompt description) models []

/-! ### Document renderer (`safe_text` / `generate_fir_pdf`, app.py lines 246-309)

`textwrap.wrap` is Python standard-library code; it is modeled here with
its default options (`replace_whitespace`, `drop_whitespace`,
`break_long_words` all true): whitespace is normalized to single spaces,
the text is cut into maximal runs of spaces / non-spaces, and the greedy
line filler emits lines of at most `width` characters, chopping any
chunk longer than `width`.  Two cosmetic defaults are simplified:
column-aware tab expansion is folded into whitespace normalization, and
`break_on_hyphens` (which only adds extra break opportunities at
hyphens) is omitted. -/

/-- Whitespace normalization performed by `textwrap` before chunking. -/
def twNormalize (s : List Char) : List Char :=
  s.map (fun c => if pyIsSpace c then ' ' else c)

/-- Cut a string into maximal runs of whitespace / non-whitespace
characters (the `textwrap` chunking step, hyphen splitting omitted). -/
def twChunks : List Char → List (List Char)
  | [] => []
  | c :: t =>
    match twChunks t with
    | [] => [[c]]
    | [] :: rest => [c] :: [] :: rest
    | (d :: ds) :: rest =>
      if pyIsSpace c = pyIsSpace d then (c :: d :: ds) :: rest
      else [c] :: (d :: ds) :: rest

/-- A chunk that Python's `chunk.strip() == ''` test treats as pure
whitespace. -/
def isSpaceChunk (ch : List Char) : Bool :=
  ch.all pyIsSpace

/-- Result of the greedy inner loop of `textwrap._wrap_chunks`: the
chunks taken onto the current line, the resulting line length, and the
chunks left over. -/
structure TakeFitResult where
  taken : List (List Char)
  len : Nat
  rest : List (List Char)

/-- Greedy inner loop of `textwrap._wrap_chunks`: keep appending chunks
while the accumulated length stays within `width`. -/
def takeFit (width : Nat) : Nat → List (List Char) → TakeFitResult
  | curLen, [] => ⟨[], curLen, []⟩
  | curLen, ch :: rest =>
    if curLen + ch.length ≤ width then
      let r := takeFit width (curLen + ch.length) rest
      ⟨ch :: r.taken, r.len, r.rest⟩
    else ⟨[], curLen, ch :: rest⟩

/-- Total length of a chunk list. -/
def sumLen (l : List (List Char)) : Nat :=
  (l.map List.length).sum

/-- Long-word handling of `textwrap._handle_long_word` with
`break_long_words`: when the first leftover chunk is longer than
`width`, chop off the space left on the current line (at least one
character when `width < 1`). -/
def longWordAdjust (width : Nat) (r : TakeFitResult) :
    List (List Char) × List (List Char) :=
  match r.rest with
  | [] => (r.taken, [])
  | w0 :: ws =>
    if width < w0.length then
      (r.taken ++ [w0.take (if width < 1 then 1 else width - r.len)],
       w0.drop (if width < 1 then 1 else width - r.len) :: ws)
    else (r.taken, w0 :: ws)

/-- Drop a trailing whitespace chunk from the current line
(`drop_whitespace` behavior of `textwrap._wrap_chunks`). -/
def dropTrailingWs (cur : List (List Char)) : List (List Char) :=
  match cur.getLast? with
  | some lastc => if isSpaceChunk lastc then cur.dropLast else cur
  | none => cur

/-- One iteration of `textwrap._wrap_chunks` on a non-empty chunk list
with the default options: drop a leading whitespace chunk on
continuation lines, fill greedily, chop an overlong chunk, drop a
trailing whitespace chunk, and emit the line if anything remains.
Returns the remaining chunks and the updated (reversed) line
accumulator. -/
def twWrapStep (width : Nat) (c0 : List Char) (crest lines : List (List Char)) :
    List (List Char) × List (List Char) :=
  let chunks1 := if isSpaceChunk c0 ∧ lines ≠ [] then crest else c0 :: crest
  let adj := longWordAdjust width (takeFit width 0 chunks1)
  let cur := dropTrailingWs adj.1
  (adj.2, if cur = [] then lines else cur.flatten :: lines)

/-- Fuel-driven outer loop of `textwrap._wrap_chunks`.  The fuel is
always instantiated with more than the total character count, which
suffices because every iteration consumes at least one character. -/
def twWrapF (width : Nat) : Nat → List (List Char) → List (List Char) → List (List Char)
  | 0, _, lines => lines.reverse
  | fuel + 1, chunks0, lines =>
    match chunks0 with
    | [] => lines.reverse
    | c0 :: crest =>
      twWrapF width fuel (twWrapStep width c0 crest lines).1
        (twWrapStep width c0 crest lines).2

/-- Python `textwrap.wrap(text, width)` with default options, on
character lists. -/
def twWrap (width : Nat) (text : List Char) : List (List Char) :=
  let t := twNormalize text
  twWrapF width (t.length + 1) (twChunks t) []

/-- The `re.sub(r"(\S{width,})", lambda m: " ".join(textwrap.wrap(m.group(0), width)), text)`
pass of `safe_text` (app.py lines 249-251): every maximal
whitespace-free run of at least `width` characters is replaced by its
`width`-sized chunks joined with single spaces. -/
def reSubLong (width : Nat) (s : List Char) : List Char :=
  ((twChunks s).map (fun run =>
    if (run.all fun c => !pyIsSpace c) ∧ width ≤ run.length then
      joinSep [' '] (twWrap width run)
    else run)).flatten

/-- The renderer's text preparation `safe_text(text, width=100)`
(app.py lines 246-252).  The argument is an `Option String` because the
Python callers pass `None` for SQL NULL column values; `if not text`
maps both `None` and the empty string to the placeholder `"N/A"`. -/
def safe_text (text : Option String) (width : Nat := 100) : String :=
  if text.getD "" = "" then "N/A"
  else String.mk (joinSep ['\n'] (twWrap width (reSubLong width (text.getD "").data)))

/-- The fixed ordered (label, record-key) list rendered by
`generate_fir_pdf` (app.py lines 280-295). -/
def FIR_FIELDS : List (String × String) :=
  [("Complainant", "name"),
   ("Email", "email"),
   ("Phone", "phone"),
   ("Accused", "accused_name"),
   ("Role", "accused_role"),
   ("Incident Date", "incident_date"),
   ("Location", "location_details"),
   ("Violation Type", "violation_type"),
   ("Description", "description"),
   ("Company", "company"),
   ("Company Address", "company_address"),
   ("Industry", "industry"),
   ("Suggested Laws", "laws"),
   ("Recommended Actions", "actions")]

/-- Python `d.get(key, default)` for a record modeled as a partial map:
outer `none` means the key is absent, `some none` means the key maps to
Python `None` (a SQL NULL), `some (some s)` a string value. -/
def py_dict_get (d : String → Option (Option String)) (key : String)
    (default : Option String) : Option String :=
  (d key).getD default

/-- Text content of the PDF produced by `generate_fir_pdf(fir_dict)`
(app.py lines 254-309): for each configured field, a bold `label:` cell
followed by the `safe_text`-prepared field value.  The title line, font
selection, and byte serialization are presentation/external-library
concerns and are not part of the content model. -/
def generate_fir_pdf (fir_dict : String → Option (Option String)) :
    List (String × String) :=
  FIR_FIELDS.map (fun lk => (lk.1 ++ ":", safe_text (py_dict_get fir_dict lk.2 (some "N/A"))))

/-! ### Download routes -/

/-- One `fir_reports` row: primary key, owning user, and the dict of its
text columns as handed to `generate_fir_pdf`. -/
structure FirRow where
  id : Nat
  user_id : Nat
  data : String → Option (Option String)

/-- Outcome of a download route: a flash-and-redirect response carrying
no report data, or a served file with its download name. -/
inductive DownloadResult (α : Type) where
  | redirect (msg : String)
  | file (content : α) (download_name : String)

/-- Whether a download outcome is a redirect (rejection) rather than a
served file. -/
def DownloadResult.isRedirect : DownloadResult α → Bool
  | .redirect _ => true
  | .file _ _ => false

/-- The database-backed download route `download_fir(fir_id)` (app.py
lines 312-332): requires a session user, fetches the row matching both
the requested id and the session user id, and either redirects with an
error flash or serves the generated PDF. -/
def download_fir (db : List FirRow) (sess : Option Nat) (fir_id : Nat) :
    DownloadResult (List (String × String)) :=
  match sess with
  | none => .redirect "Please login first."
  | some uid =>
    match db.find? (fun r => r.id == fir_id && r.user_id == uid) with
    | none => .redirect "Invalid FIR ID or you do not have permission to download this report."
    | some row => .file (generate_fir_pdf row.data) ("FIR_" ++ toString fir_id ++ ".pdf")

/-! ### In-memory variant (api/app.py) -/

/-- One report of the in-memory variant (api/app.py lines 134-141):
form-derived fields are `Option String` (Python `request.form.get` may
return `None`), the derived fields are strings. -/
structure ApiFir where
  name : Option String
  company : Option String
  description : Option String
  status : String
  laws : String
  actions : String
deriving DecidableEq

/-- Python f-string rendering of a value that may be `None`. -/
def pyShow : Option String → String
  | none => "None"
  | some s => s

/-- Text content of the PDF produced by the in-memory variant's
`generate_fir_pdf(fir)` (api/app.py lines 162-179). -/
def api_generate_fir_pdf (fir : ApiFir) : List String :=
  ["FIR Report",
   "Name: " ++ pyShow fir.name,
   "Company: " ++ pyShow fir.company,
   "Description: " ++ pyShow fir.description,
   "Suggested Laws: " ++ fir.laws,
   "Recommended Actions: " ++ fir.actions]

/-- Store update performed by the in-memory variant's `report` route on
a POST (api/app.py lines 124-145): when a session user exists, the new
report (with the analysis pair already computed) is appended to the
shared `fir_reports` list; the record stores no owner. -/
def api_report_submit (sess : Option String) (form : String → Option String)
    (laws actions : String) (store : List ApiFir) : List ApiFir :=
  match sess with
  | none => store
  | some _ =>
    store ++ [⟨form "full_name", form "company_name", form "description",
               "Analyzed", laws, actions⟩]

/-- The in-memory variant's download route `download_fir(fir_id)`
(api/app.py lines 148-160): requires a session user, bounds-checks the
index against the shared `fir_reports` list, and serves the PDF of the
report at that index with no ownership check. -/
def api_download_fir (fir_reports : List ApiFir) (sess : Option String)
    (fir_id : Nat) : DownloadResult (List String) :=
  match sess with
  | none => .redirect "Please login first."
  | some _ =>
    match fir_reports.get? fir_id with
    | none => .redirect "Invalid FIR ID"
    | some fir => .file (api_generate_fir_pdf fir) ("FIR_" ++ toString (fir_id + 1) ++ ".pdf")

/-! ### Lemmas: substring search and splitting -/

theorem isPre_iff {l s : List Char} : isPre l s = true ↔ ∃ t, s = l ++ t := by
  induction l generalizing s with
  | nil => simp [isPre]
  | cons a as ih =>
    cases s with
    | nil => simp [isPre]
    | cons b bs =>
      simp only [isPre, Bool.and_eq_true, decide_eq_true_eq, ih]
      constructor
      · rintro ⟨rfl, t, rfl⟩; exact ⟨t, rfl⟩
      · rintro ⟨t, h⟩
        injection h with h1 h2
        exact ⟨h1.symm, t, h2⟩

theorem isPre_append {l s r : List Char} (h : isPre l s = true) :
    isPre l (s ++ r) = true := by
  rcases isPre_iff.mp h with ⟨t, rfl⟩
  exact isPre_iff.mpr ⟨t ++ r, by simp⟩

theorem findSub_cons_pos {sep : List Char} {c : Char} {t : List Char}
    (hp : isPre sep (c :: t) = true) : findSub sep (c :: t) = some 0 := by
  simp [findSub, hp]

theorem findSub_cons_neg {sep : List Char} {c : Char} {t : List Char}
    (hp : ¬ isPre sep (c :: t) = true) :
    findSub sep (c :: t) = (findSub sep t).map (· + 1) := by
  simp [findSub, hp]

theorem findSub_bound {sep s : List Char} {i : Nat} (h : findSub sep s = some i) :
    i + sep.length ≤ s.length := by
  induction s generalizing i with
  | nil =>
    by_cases hsep : sep.isEmpty = true
    · simp only [findSub, hsep, if_pos] at h
      injection h with h'
      subst h'
      simp [List.isEmpty_iff.mp hsep]
    · simp [findSub, hsep] at h
  | cons c t ih =>
    by_cases hp : isPre sep (c :: t) = true
    · rw [findSub_cons_pos hp] at h
      injection h with h'
      subst h'
      rcases isPre_iff.mp hp with ⟨u, hu⟩
      simp [hu]
    · rw [findSub_cons_neg hp] at h
      rcases Option.map_eq_some'.mp h with ⟨j, hj, hji⟩
      have := ih hj
      subst hji
      simp only [List.length_cons]
      omega

theorem findSub_decomp {sep s : List Char} {i : Nat} (h : findSub sep s = some i) :
    s = s.take i ++ sep ++ s.drop (i + sep.length) := by
  induction s generalizing i with
  | nil =>
    by_cases hsep : sep.isEmpty = true
    · simp only [findSub, hsep, if_pos] at h
      injection h with h'
      subst h'
      simp [List.isEmpty_iff.mp hsep]
    · simp [findSub, hsep] at h
  | cons c t ih =>
    by_cases hp : isPre sep (c :: t) = true
    · rw [findSub_cons_pos hp] at h
      injection h with h'
      subst h'
      rcases isPre_iff.mp hp with ⟨u, hu⟩
      rw [List.take_zero, List.nil_append, Nat.zero_add, hu]
      simp
    · rw [findSub_cons_neg hp] at h
      rcases Option.map_eq_some'.mp h with ⟨j, hj, hji⟩
      subst hji
      have hd := ih hj
      have h1 : (c :: t).take (j + 1) = c :: t.take j := rfl
      have h2 : (c :: t).drop (j + 1 + sep.length) = t.drop (j + sep.length) := by
        have : j + 1 + sep.length = (j + sep.length) + 1 := by omega
        rw [this]
        rfl
      rw [h1, h2]
      calc c :: t = c :: (t.take j ++ sep ++ t.drop (j + sep.length)) := by rw [← hd]
        _ = c :: t.take j ++ sep ++ t.drop (j + sep.length) := by simp

theorem findSub_none_of_append {sep p r : List Char}
    (h : findSub sep (p ++ r) = none) : findSub sep p = none := by
  have hsep : sep ≠ [] := by
    intro hs
    subst hs
    cases hpr : p ++ r with
    | nil => rw [hpr] at h; simp [findSub] at h
    | cons x xs => rw [hpr] at h; simp [findSub, isPre] at h
  revert h
  induction p with
  | nil =>
    intro _
    cases sep with
    | nil => exact absurd rfl hsep
    | cons a as => simp [findSub]
  | cons c t ih =>
    intro h
    simp only [List.cons_append] at h
    by_cases hp : isPre sep (c :: (t ++ r)) = true
    · rw [findSub_cons_pos hp] at h
      simp at h
    · rw [findSub_cons_neg hp] at h
      have ht : findSub sep (t ++ r) = none := by
        cases hf : findSub sep (t ++ r) with
        | none => rfl
        | some j => rw [hf] at h; simp at h
      have hpre : ¬ isPre sep (c :: t) = true := by
        intro hq
        exact hp (by simpa using isPre_append (r := r) hq)
      rw [findSub_cons_neg hpre, ih ht]
      rfl

theorem findSub_char_none {c : Char} {l : List Char} (h : c ∉ l) :
    findSub [c] l = none := by
  induction l with
  | nil => simp [findSub]
  | cons x t ih =>
    have hx : c ≠ x := fun hc => h (hc ▸ List.mem_cons_self x t)
    have hpre : isPre [c] (x :: t) = false := by
      simp [isPre, hx]
    simp [findSub, hpre, ih (fun hm => h (List.mem_cons_of_mem x hm))]

theorem findSub_char_append {c : Char} {l r : List Char} (h : c ∉ l) :
    findSub [c] (l ++ c :: r) = some l.length := by
  induction l with
  | nil => simp [findSub, isPre]
  | cons x t ih =>
    have hx : c ≠ x := fun hc => h (hc ▸ List.mem_cons_self x t)
    have hpre : isPre [c] (x :: (t ++ c :: r)) = false := by
      simp [isPre, hx]
    simp [findSub, hpre, ih (fun hm => h (List.mem_cons_of_mem x hm))]

theorem pySplitF_ne_nil {sep : List Char} {fuel : Nat} {s : List Char} :
    pySplitF sep fuel s ≠ [] := by
  cases fuel with
  | zero => simp [pySplitF]
  | succ n =>
    cases h : findSub sep s with
    | none => simp [pySplitF, h]
    | some i => simp [pySplitF, h]

theorem pySplitF_congr {sep : List Char} (hsep : sep ≠ []) :
    ∀ f₁ f₂ s, s.length < f₁ → s.length < f₂ →
      pySplitF sep f₁ s = pySplitF sep f₂ s := by
  intro f₁
  induction f₁ with
  | zero => intro f₂ s h1 _; omega
  | succ n ih =>
    intro f₂ s h1 h2
    cases f₂ with
    | zero => omega
    | succ m =>
      cases h : findSub sep s with
      | none => simp [pySplitF, h]
      | some i =>
        have hb := findSub_bound h
        have hsl : 1 ≤ sep.length := by
          cases sep with
          | nil => exact absurd rfl hsep
          | cons a as => simp
        have hlt : (s.drop (i + sep.length)).length < n := by
          simp only [List.length_drop]
          omega
        have hlt2 : (s.drop (i + sep.length)).length < m := by
          simp only [List.length_drop]
          omega
        simp only [pySplitF, h]
        rw [ih m (s.drop (i + sep.length)) hlt hlt2]

theorem pySplitL_of_none {sep s : List Char} (h : findSub sep s = none) :
    pySplitL sep s = [s] := by
  simp [pySplitL, pySplitF, h]

theorem pySplitL_cons {sep s : List Char} {i : Nat} (hsep : sep ≠ [])
    (h : findSub sep s = some i) :
    pySplitL sep s = s.take i :: pySplitL sep (s.drop (i + sep.length)) := by
  have hb := findSub_bound h
  have hsl : 1 ≤ sep.length := by
    cases sep with
    | nil => exact absurd rfl hsep
    | cons a as => simp
  have h1 : (s.drop (i + sep.length)).length < s.length := by
    rw [List.length_drop]
    omega
  have h2 : (s.drop (i + sep.length)).length < (s.drop (i + sep.length)).length + 1 := by
    omega
  simp only [pySplitL, pySplitF, h]
  congr 1
  exact pySplitF_congr hsep _ _ _ h1 h2

theorem joinSep_cons {sep a : List Char} {l : List (List Char)} (h : l ≠ []) :
    joinSep sep (a :: l) = a ++ sep ++ joinSep sep l := by
  cases l with
  | nil => exact absurd rfl h
  | cons b bs => rfl

theorem joinSep_pySplitL {sep : List Char} (hsep : sep ≠ []) (s : List Char) :
    joinSep sep (pySplitL sep s) = s := by
  have main : ∀ fuel s, List.length s < fuel → joinSep sep (pySplitF sep fuel s) = s := by
    intro fuel
    induction fuel with
    | zero => intro s h; omega
    | succ n ih =>
      intro s hlen
      cases h : findSub sep s with
      | none => simp [pySplitF, h, joinSep]
      | some i =>
        have hb := findSub_bound h
        have hsl : 1 ≤ sep.length := by
          cases sep with
          | nil => exact absurd rfl hsep
          | cons a as => simp
        have hlt : (s.drop (i + sep.length)).length < n := by
          simp only [List.length_drop]
          omega
        simp only [pySplitF, h]
        rw [joinSep_cons pySplitF_ne_nil, ih _ hlt]
        exact (findSub_decomp h).symm
  exact main _ s (by omega)

theorem pySplitL_findSub_isSome {sep s : List Char} {a b : List Char}
    {l : List (List Char)} (h : pySplitL sep s = a :: b :: l) :
    (findSub sep s).isSome = true := by
  cases hf : findSub sep s with
  | none => rw [pySplitL_of_none hf] at h; simp at h
  | some i => simp

theorem pySplitL_join_singleton {c : Char} :
    ∀ ls : List (List Char), ls ≠ [] → (∀ l ∈ ls, c ∉ l) →
      pySplitL [c] (joinSep [c] ls) = ls := by
  intro ls
  induction ls with
  | nil => intro h; exact absurd rfl h
  | cons a rest ih =>
    intro _ hmem
    have ha : c ∉ a := hmem a (List.mem_cons_self a rest)
    cases rest with
    | nil =>
      simp only [joinSep]
      exact pySplitL_of_none (findSub_char_none ha)
    | cons b bs =>
      rw [joinSep_cons (by simp), List.append_assoc, List.singleton_append]
      rw [pySplitL_cons (by simp) (findSub_char_append ha)]
      have htake : (a ++ c :: joinSep [c] (b :: bs)).take a.length = a := by
        simp
      have hdrop : (a ++ c :: joinSep [c] (b :: bs)).drop (a.length + 1) =
          joinSep [c] (b :: bs) := by
        simp
      rw [htake]
      simp only [List.length_singleton]
      rw [hdrop, ih (by simp) (fun l hl => hmem l (List.mem_cons_of_mem a hl))]

theorem pyReplaceL_of_none {old new s : List Char} (h : findSub old s = none) :
    pyReplaceL old new s = s := by
  simp [pyReplaceL, pyReplaceF, h]

/-! ### Lemmas: text wrapping -/

theorem twChunks_flatten (s : List Char) : (twChunks s).flatten = s := by
  induction s with
  | nil => rfl
  | cons c t ih =>
    simp only [twChunks]
    cases h : twChunks t with
    | nil =>
      rw [h] at ih
      simp only [List.flatten_nil] at ih
      simp [← ih]
    | cons ch rest =>
      rw [h] at ih
      cases ch with
      | nil =>
        simp only [List.flatten_cons] at ih ⊢
        simp only [List.nil_append] at ih
        simp [ih]
      | cons d ds =>
        by_cases hpd : pyIsSpace c = pyIsSpace d
        · simp only [hpd, if_pos, List.flatten_cons] at ih ⊢
          simp_all
        · simp only [hpd, if_neg, List.flatten_cons] at ih ⊢
          simp_all

theorem sumLen_flatten (l : List (List Char)) : l.flatten.length = sumLen l := by
  simp [sumLen, List.length_flatten]

theorem sumLen_dropLast_le (l : List (List Char)) : sumLen l.dropLast ≤ sumLen l := by
  unfold sumLen
  exact ((List.dropLast_sublist l).map List.length).sum_le_sum (by simp)

theorem takeFit_len_le {w : Nat} {chunks : List (List Char)} :
    ∀ {n : Nat}, n ≤ w → (takeFit w n chunks).len ≤ w := by
  induction chunks with
  | nil => intro n hn; simpa [takeFit]
  | cons ch rest ih =>
    intro n hn
    by_cases hc : n + ch.length ≤ w
    · simp only [takeFit, hc, if_pos]
      exact ih hc
    · simp [takeFit, hc, hn]

theorem takeFit_len_eq {w : Nat} {chunks : List (List Char)} :
    ∀ {n : Nat}, (takeFit w n chunks).len = n + sumLen (takeFit w n chunks).taken := by
  induction chunks with
  | nil => intro n; simp [takeFit, sumLen]
  | cons ch rest ih =>
    intro n
    by_cases hc : n + ch.length ≤ w
    · simp only [takeFit, hc, if_pos]
      show (takeFit w (n + ch.length) rest).len =
        n + sumLen (ch :: (takeFit w (n + ch.length) rest).taken)
      rw [ih]
      simp [sumLen]
      omega
    · simp [takeFit, hc, sumLen]

theorem takeFit_taken_mem {w n : Nat} {chunks : List (List Char)} {l : List Char}
    (h : l ∈ (takeFit w n chunks).taken) : l ∈ chunks := by
  induction chunks generalizing n with
  | nil => simp [takeFit] at h
  | cons ch rest ih =>
    by_cases hc : n + ch.length ≤ w
    · simp only [takeFit, hc, if_pos] at h
      rcases List.mem_cons.mp h with h | h
      · exact h ▸ List.mem_cons_self ch rest
      · exact List.mem_cons_of_mem ch (ih h)
    · simp [takeFit, hc] at h

theorem takeFit_rest_mem {w n : Nat} {chunks : List (List Char)} {l : List Char}
    (h : l ∈ (takeFit w n chunks).rest) : l ∈ chunks := by
  induction chunks generalizing n with
  | nil => simp [takeFit] at h
  | cons ch rest ih =>
    by_cases hc : n + ch.length ≤ w
    · simp only [takeFit, hc, if_pos] at h
      exact List.mem_cons_of_mem ch (ih h)
    · simpa [takeFit, hc] using h

theorem longWordAdjust_fst_sum {w : Nat} {r : TakeFitResult} (hw : 1 ≤ w)
    (hsum : sumLen r.taken = r.len) (hle : r.len ≤ w) :
    sumLen (longWordAdjust w r).1 ≤ w := by
  rcases hrest : r.rest with _ | ⟨w0, ws⟩
  · simp only [longWordAdjust, hrest]
    omega
  · simp only [longWordAdjust, hrest]
    by_cases hlong : w < w0.length
    · have hnl : ¬ w < 1 := by omega
      simp only [hlong, if_pos, hnl, if_neg, if_false, ite_false]
      have hsplit : sumLen (r.taken ++ [w0.take (w - r.len)]) =
          sumLen r.taken + (w0.take (w - r.len)).length := by
        simp [sumLen]
      rw [hsplit, hsum]
      have htk : (w0.take (w - r.len)).length ≤ w - r.len := by
        rw [List.length_take]
        omega
      omega
    · simp only [hlong, if_neg, if_false, ite_false]
      omega

theorem dropTrailingWs_sum_le (cur : List (List Char)) :
    sumLen (dropTrailingWs cur) ≤ sumLen cur := by
  unfold dropTrailingWs
  rcases cur.getLast? with _ | lastc
  · exact Nat.le_refl _
  · by_cases hsp : isSpaceChunk lastc = true
    · simp only [hsp, if_pos]
      exact sumLen_dropLast_le cur
    · simp only [hsp, if_neg]
      exact Nat.le_refl _

theorem twWrapStep_snd_length {w : Nat} (hw : 1 ≤ w) (c0 : List Char)
    (crest lines : List (List Char)) (hl : ∀ l ∈ lines, l.length ≤ w) :
    ∀ l ∈ (twWrapStep w c0 crest lines).2, l.length ≤ w := by
  intro l hl'
  simp only [twWrapStep] at hl'
  set chunks1 := if isSpaceChunk c0 ∧ lines ≠ [] then crest else c0 :: crest with hch
  set r := takeFit w 0 chunks1 with hr
  have hrle : r.len ≤ w := takeFit_len_le (Nat.zero_le w)
  have hrsum : sumLen r.taken = r.len := by
    have h0 := @takeFit_len_eq w chunks1 0
    rw [← hr] at h0
    omega
  have hcurlen : (dropTrailingWs (longWordAdjust w r).1).flatten.length ≤ w := by
    rw [sumLen_flatten]
    calc sumLen (dropTrailingWs (longWordAdjust w r).1)
        ≤ sumLen (longWordAdjust w r).1 := dropTrailingWs_sum_le _
      _ ≤ w := longWordAdjust_fst_sum hw hrsum hrle
  split at hl'
  · exact hl l hl'
  · rcases List.mem_cons.mp hl' with h | h
    · exact h ▸ hcurlen
    · exact hl l h

theorem longWordAdjust_chars {P : Char → Prop} {w : Nat} {r : TakeFitResult}
    (hT : ∀ ch ∈ r.taken, ∀ c ∈ ch, P c) (hR : ∀ ch ∈ r.rest, ∀ c ∈ ch, P c) :
    (∀ ch ∈ (longWordAdjust w r).1, ∀ c ∈ ch, P c) ∧
    (∀ ch ∈ (longWordAdjust w r).2, ∀ c ∈ ch, P c) := by
  rcases hrest : r.rest with _ | ⟨w0, ws⟩
  · simp only [longWordAdjust, hrest]
    exact ⟨hT, by simp⟩
  · have hw0 : ∀ c ∈ w0, P c := hR w0 (hrest ▸ List.mem_cons_self w0 ws)
    have hws : ∀ ch ∈ ws, ∀ c ∈ ch, P c :=
      fun ch hch => hR ch (hrest ▸ List.mem_cons_of_mem w0 hch)
    simp only [longWordAdjust, hrest]
    by_cases hlong : w < w0.length
    · simp only [hlong, if_pos]
      constructor
      · intro ch hch c hc
        rcases List.mem_append.mp hch with h | h
        · exact hT ch h c hc
        · rw [List.mem_singleton.mp h] at hc
          exact hw0 c ((List.take_sublist _ w0).mem hc)
      · intro ch hch c hc
        rcases List.mem_cons.mp hch with h | h
        · rw [h] at hc
          exact hw0 c ((List.drop_sublist _ w0).mem hc)
        · exact hws ch h c hc
    · simp only [hlong, if_neg]
      refine ⟨hT, ?_⟩
      intro ch hch c hc
      rcases List.mem_cons.mp hch with h | h
      · exact hw0 c (h ▸ hc)
      · exact hws ch h c hc

theorem dropTrailingWs_mem {cur : List (List Char)} {ch : List Char}
    (h : ch ∈ dropTrailingWs cur) : ch ∈ cur := by
  unfold dropTrailingWs at h
  cases hg : cur.getLast? with
  | none => rw [hg] at h; exact h
  | some lastc =>
    rw [hg] at h
    dsimp only at h
    by_cases hsp : isSpaceChunk lastc = true
    · rw [if_pos hsp] at h
      exact (List.dropLast_sublist cur).mem h
    · rw [if_neg hsp] at h
      exact h

theorem twWrapStep_chars {P : Char → Prop} {w : Nat} {c0 : List Char}
    {crest lines : List (List Char)}
    (hch : ∀ ch ∈ c0 :: crest, ∀ c ∈ ch, P c)
    (hln : ∀ l ∈ lines, ∀ c ∈ l, P c) :
    (∀ ch ∈ (twWrapStep w c0 crest lines).1, ∀ c ∈ ch, P c) ∧
    (∀ l ∈ (twWrapStep w c0 crest lines).2, ∀ c ∈ l, P c) := by
  simp only [twWrapStep]
  set chunks1 := if isSpaceChunk c0 ∧ lines ≠ [] then crest else c0 :: crest with hc1
  have hchunks1 : ∀ ch ∈ chunks1, ∀ c ∈ ch, P c := by
    rw [hc1]
    split
    · exact fun ch h => hch ch (List.mem_cons_of_mem c0 h)
    · exact hch
  set r := takeFit w 0 chunks1 with hr
  have hT : ∀ ch ∈ r.taken, ∀ c ∈ ch, P c :=
    fun ch h => hchunks1 ch (takeFit_taken_mem h)
  have hR : ∀ ch ∈ r.rest, ∀ c ∈ ch, P c :=
    fun ch h => hchunks1 ch (takeFit_rest_mem h)
  have hadj := longWordAdjust_chars (w := w) hT hR
  refine ⟨hadj.2, ?_⟩
  intro l hl c hc
  revert hl
  split
  · exact fun hl => hln l hl c hc
  · intro hl
    rcases List.mem_cons.mp hl with h | h
    · rw [h] at hc
      rcases List.mem_flatten.mp hc with ⟨ch, hch2, hcch⟩
      exact hadj.1 ch (dropTrailingWs_mem hch2) c hcch
    · exact hln l h c hc

theorem twWrapF_chars {P : Char → Prop} {w : Nat} :
    ∀ (fuel : Nat) (chunks lines : List (List Char)),
      (∀ ch ∈ chunks, ∀ c ∈ ch, P c) →
      (∀ l ∈ lines, ∀ c ∈ l, P c) →
      ∀ l ∈ twWrapF w fuel chunks lines, ∀ c ∈ l, P c := by
  intro fuel
  induction fuel with
  | zero =>
    intro chunks lines _ hln l hmem
    exact hln l (List.mem_reverse.mp (by simpa [twWrapF] using hmem))
  | succ n ih =>
    intro chunks lines hch hln l hmem
    cases chunks with
    | nil => exact hln l (List.mem_reverse.mp (by simpa [twWrapF] using hmem))
    | cons c0 crest =>
      rw [twWrapF] at hmem
      have hstep := twWrapStep_chars (w := w) hch hln
      exact ih _ _ hstep.1 hstep.2 l hmem

theorem twNormalize_no_newline {s : List Char} {c : Char}
    (h : c ∈ twNormalize s) : c ≠ '\n' := by
  rcases List.mem_map.mp h with ⟨a, _, ha⟩
  by_cases hsp : pyIsSpace a = true
  · rw [← ha]
    simp [hsp]
  · rw [← ha]
    simp only [hsp, if_neg, Bool.false_eq_true, if_false, ite_false]
    intro hc
    rw [hc] at hsp
    simp [pyIsSpace] at hsp

theorem twWrap_no_newline {w : Nat} {s : List Char} :
    ∀ l ∈ twWrap w s, '\n' ∉ l := by
  intro l hl hc
  simp only [twWrap] at hl
  have := twWrapF_chars (P := fun c => c ∈ twNormalize s)
    ((twNormalize s).length + 1) (twChunks (twNormalize s)) []
    (fun ch hch c hcc => by
      rw [← twChunks_flatten (twNormalize s)]
      exact List.mem_flatten.mpr ⟨ch, hch, hcc⟩)
    (by simp)
    l hl '\n' hc
  exact twNormalize_no_newline this rfl

theorem twWrapF_length_le {w : Nat} (hw : 1 ≤ w) :
    ∀ (fuel : Nat) (chunks lines : List (List Char)),
      (∀ l ∈ lines, l.length ≤ w) →
      ∀ l ∈ twWrapF w fuel chunks lines, l.length ≤ w := by
  intro fuel
  induction fuel with
  | zero =>
    intro chunks lines hl l hmem
    exact hl l (List.mem_reverse.mp (by simpa [twWrapF] using hmem))
  | succ n ih =>
    intro chunks lines hl l hmem
    cases chunks with
    | nil => exact hl l (List.mem_reverse.mp (by simpa [twWrapF] using hmem))
    | cons c0 crest =>
      rw [twWrapF] at hmem
      exact ih _ _ (twWrapStep_snd_length hw c0 crest lines hl) l hmem

theorem twWrap_length_le {w : Nat} (hw : 1 ≤ w) {s : List Char} :
    ∀ l ∈ twWrap w s, l.length ≤ w := by
  intro l hl
  simp only [twWrap] at hl
  exact twWrapF_length_le hw _ _ _ (by simp) l hl

/-! ### Lemmas: String-level transfers -/

theorem pySplit_eq_two {sep s p q : String} (h : pySplit sep s = [p, q]) :
    pySplitL sep.data s.data = [p.data, q.data] := by
  unfold pySplit at h
  cases hl : pySplitL sep.data s.data with
  | nil => rw [hl] at h; simp at h
  | cons a rest =>
    rw [hl] at h
    cases rest with
    | nil => simp at h
    | cons b rest2 =>
      cases rest2 with
      | nil =>
        simp only [List.map_cons, List.map_nil] at h
        injection h with h1 h2
        injection h2 with h2 h3
        rw [← h1, ← h2]
      | cons x rest3 => simp at h

theorem pyIn_of_split_two {sep s p q : String} (h : pySplit sep s = [p, q]) :
    pyIn sep s = true := by
  have hl := pySplit_eq_two h
  unfold pyIn
  exact pySplitL_findSub_isSome hl

/-! ### Lemmas: the candidate-model loop -/

theorem analyze_loop_all_err {svc : String → String → ServiceResult} {prompt : String} :
    ∀ (models tried : List String),
      (∀ m ∈ models, m = "" ∨ svc m prompt = .err) →
      analyze_loop svc prompt models tried =
        ⟨guidance, "Try again later", tried ++ models.filter (fun s => !(s == ""))⟩ := by
  intro models
  induction models with
  | nil => intro tried _; simp [analyze_loop]
  | cons c rest ih =>
    intro tried h
    have hc := h c (List.mem_cons_self c rest)
    have hrest := fun m hm => h m (List.mem_cons_of_mem c hm)
    by_cases hce : c = ""
    · rw [analyze_loop, if_pos hce, ih tried hrest]
      simp [hce]
    · rcases hc with h1 | h2
      · exact absurd h1 hce
      · rw [analyze_loop, if_neg hce, h2, ih (tried ++ [c]) hrest]
        have hbeq : (!(c == "")) = true := by
          simp [hce]
        simp [List.filter_cons, hbeq]

theorem analyze_loop_shape {svc : String → String → ServiceResult} {prompt : String} :
    ∀ (models tried : List String),
      (analyze_loop svc prompt models tried).toPair = (guidance, "Try again later") ∨
      ∃ resp, (analyze_loop svc prompt models tried).toPair = parse_response resp := by
  intro models
  induction models with
  | nil => intro tried; left; rfl
  | cons c rest ih =>
    intro tried
    by_cases hce : c = ""
    · rw [analyze_loop, if_pos hce]
      exact ih tried
    · rw [analyze_loop, if_neg hce]
      cases hs : svc c prompt with
      | err => exact ih (tried ++ [c])
      | ok resp =>
        right
        exact ⟨resp, rfl⟩

theorem analyze_loop_first_ok {svc : String → String → ServiceResult} {prompt : String} :
    ∀ (pre tried : List String) {m : String} {rest : List String} {resp : GenResponse},
      (∀ m' ∈ pre, m' = "" ∨ svc m' prompt = .err) →
      m ≠ "" → svc m prompt = .ok resp →
      analyze_loop svc prompt (pre ++ m :: rest) tried =
        ⟨(parse_response resp).1, (parse_response resp).2,
         tried ++ pre.filter (fun s => !(s == "")) ++ [m]⟩ := by
  intro pre
  induction pre with
  | nil =>
    intro tried m rest resp _ hm hok
    rw [List.nil_append, analyze_loop, if_neg hm, hok]
    simp
  | cons c pt ih =>
    intro tried m rest resp h hm hok
    have hc := h c (List.mem_cons_self c pt)
    have hpt := fun m' hm' => h m' (List.mem_cons_of_mem c hm')
    by_cases hce : c = ""
    · rw [List.cons_append, analyze_loop, if_pos hce, ih tried hpt hm hok]
      simp [hce]
    · rcases hc with h1 | h2
      · exact absurd h1 hce
      · rw [List.cons_append, analyze_loop, if_neg hce, h2, ih (tried ++ [c]) hpt hm hok]
        have hbeq : (!(c == "")) = true := by
          simp [hce]
        simp [List.filter_cons, hbeq]

theorem str_ext {a b : String} (h : a.data = b.data) : a = b := by
  calc a = ⟨a.data⟩ := rfl
    _ = ⟨b.data⟩ := by rw [h]
    _ = b := rfl

/-! ### Claim C3 -/

/-- C3: when the API credential is absent at process start
(`os.getenv` returned `None`), `analyze_fir` returns exactly the pair
`("Analysis failed: API key not configured.", "Try again later")` for
every input, candidate list, and service behaviour, and issues no
network request (the `tried` trace is empty). -/
theorem analyze_fir_no_api_key (models : List String)
    (svc : String → String → ServiceResult) (description : String) :
    analyze_fir none models svc description =
      ⟨"Analysis failed: API key not configured.", "Try again later", []⟩ := rfl

/-! ### Claim C4 -/

/-- C4: when every candidate model of the configured list that is tried
ends in a request-level exception (falsy candidates are skipped without
being tried), `analyze_fir` returns exactly the fixed exhaustion pair
`("Analysis failed: Could not reach a supported model. Make sure your
API key is correct and the model name is available.", "Try again
later")` and, being a total function, lets no exception escape. -/
theorem analyze_fir_all_models_fail (k : String) (hk : k ≠ "")
    (models : List String) (svc : String → String → ServiceResult) (d : String)
    (h : ∀ m ∈ models, m = "" ∨ svc m (fir_prompt d) = .err) :
    (analyze_fir (some k) models svc d).toPair = (guidance, "Try again later") := by
  rw [analyze_fir, if_neg (by simpa using hk)]
  rw [analyze_loop_all_err models [] h]
  rfl

theorem analyze_fir_all_models_fail_witness :
    (analyze_fir (some "key") (FALLBACK_MODELS "gemini-1.5-flash")
        (fun _ _ => .err) "stolen laptop").toPair = (guidance, "Try again later") :=
  analyze_fir_all_models_fail "key" (by decide) _ _ "stolen laptop"
    (fun m _ => Or.inr rfl)

/-! ### Claim C1 -/

/-- C1 counterexample: with a configured credential and a service whose
reply text is `"Suggested Laws:Recommended Actions:"`, `analyze_fir`
returns the pair `("", "")` — both strings empty — so the claim that
`analyze_fir` always returns a pair of non-empty strings is false. -/
theorem analyze_fir_can_return_empty_pair :
    (analyze_fir (some "key") ["gemini-1.5-flash"]
      (fun _ _ => .ok ⟨some "Suggested Laws:Recommended Actions:", "resp"⟩)
      "desc").toPair = ("", "") := by
  decide

/-- C1 (amended): for every credential state, candidate list, service
behaviour, and description (including the empty string), `analyze_fir`
returns a pair of strings and never raises (it is a total function);
the pair is either one of the two fixed non-empty failure pairs or the
parse of some service response — and in the latter case a component can
be the empty string. -/
theorem analyze_fir_result_shape (api_key : Option String) (models : List String)
    (svc : String → String → ServiceResult) (d : String) :
    (analyze_fir api_key models svc d).toPair =
        ("Analysis failed: API key not configured.", "Try again later") ∨
    (analyze_fir api_key models svc d).toPair = (guidance, "Try again later") ∨
    ∃ resp, (analyze_fir api_key models svc d).toPair = parse_response resp := by
  unfold analyze_fir
  split
  · left
    rfl
  · rcases @analyze_loop_shape svc (fir_prompt d) models [] with h | h
    · right; left; exact h
    · right; right; exact h

/-! ### Claim C9 -/

/-- C9: in the candidate loop, the first candidate whose request
returns without raising determines the result: for any prefix of
candidates that are skipped (falsy) or raise, a candidate `m` whose
request returns a response makes `analyze_fir` return immediately with
that response's parse — even when the reply matches neither label or
its `.text` is missing/empty, in which case `str(response)` is parsed
in its place — and the request trace shows the later fallback
candidates were never tried. -/
theorem analyze_fir_first_ok_response_wins (k : String) (hk : k ≠ "")
    (pre : List String) (m : String) (rest : List String)
    (svc : String → String → ServiceResult) (d : String) (resp : GenResponse)
    (hpre : ∀ m' ∈ pre, m' = "" ∨ svc m' (fir_prompt d) = .err)
    (hm : m ≠ "") (hok : svc m (fir_prompt d) = .ok resp) :
    analyze_fir (some k) (pre ++ m :: rest) svc d =
      ⟨(parse_response resp).1, (parse_response resp).2,
       pre.filter (fun s => !(s == "")) ++ [m]⟩ ∧
    (resp.text?.getD "" = "" → parse_response resp = parse_text resp.asStr) := by
  constructor
  · rw [analyze_fir, if_neg (by simpa using hk)]
    rw [analyze_loop_first_ok pre [] hpre hm hok]
    simp
  · intro he
    simp only [parse_response, he, if_pos]

theorem analyze_fir_first_ok_response_wins_witness :
    analyze_fir (some "key") ["", "gemini-bad", "gemini-good", "gemini-later"]
        (fun c _ => if c = "gemini-good" then .ok ⟨none, "plain reply"⟩ else .err) "d" =
      ⟨"See AI analysis below.", "plain reply", ["gemini-bad", "gemini-good"]⟩ ∧
    parse_response ⟨none, "plain reply"⟩ = parse_text "plain reply" := by
  have h := analyze_fir_first_ok_response_wins "key" (by decide)
    ["", "gemini-bad"] "gemini-good" ["gemini-later"]
    (fun c _ => if c = "gemini-good" then .ok ⟨none, "plain reply"⟩ else .err)
    "d" ⟨none, "plain reply"⟩
    (by intro m' hm'; right; simp at hm'; rcases hm' with rfl | rfl <;> rfl)
    (by decide) rfl
  exact ⟨h.1.trans (by decide), h.2 rfl⟩

/-! ### Claim C5 -/

/-- C5: for a service reply in which `"Suggested Laws:"` does not occur
and `"Recommended Actions:"` occurs exactly once (one clean split point,
`pySplit` yielding exactly two parts `p` and `q`), `analyze_fir` returns
as laws the whitespace-trimmed remainder before the label (the leading
`"Suggested Laws:"`-stripping `replace` is a no-op since that label is
absent) and as actions the whitespace-trimmed remainder after it. -/
theorem analyze_fir_actions_label_only (k m d r' : String) (hk : k ≠ "")
    (hm : m ≠ "") (text p q : String)
    (hs : pyIn "Suggested Laws:" text = false)
    (hsplit : pySplit "Recommended Actions:" text = [p, q]) :
    text = p ++ "Recommended Actions:" ++ q ∧
    (analyze_fir (some k) [m] (fun _ _ => .ok ⟨some text, r'⟩) d).toPair
      = (pyStrip p, pyStrip q) := by
  have htext : text ≠ "" := by
    intro he
    rw [he] at hsplit
    have : pySplit "Recommended Actions:" "" = [""] := rfl
    rw [this] at hsplit
    simp at hsplit
  have hl := pySplit_eq_two hsplit
  have hdecomp : text = p ++ "Recommended Actions:" ++ q := by
    apply str_ext
    have hj := @joinSep_pySplitL ("Recommended Actions:" : String).data
      (by decide) text.data
    rw [hl] at hj
    rw [String.data_append, String.data_append]
    calc text.data = joinSep ("Recommended Actions:" : String).data
          [p.data, q.data] := hj.symm
      _ = p.data ++ ("Recommended Actions:" : String).data ++ q.data := rfl
  refine ⟨hdecomp, ?_⟩
  have hfirst := @analyze_loop_first_ok (fun _ _ => .ok ⟨some text, r'⟩)
    (fir_prompt d) [] [] m [] ⟨some text, r'⟩ (by simp) hm rfl
  rw [analyze_fir, if_neg (by simpa using hk)]
  rw [List.nil_append] at hfirst
  rw [hfirst]
  show parse_response ⟨some text, r'⟩ = (pyStrip p, pyStrip q)
  have hresp : parse_response ⟨some text, r'⟩ = parse_text text := by
    simp only [parse_response, Option.getD_some, if_neg htext]
  rw [hresp]
  rw [parse_text]
  rw [if_neg (by
    rintro ⟨-, hSL, -⟩
    rw [hs] at hSL
    exact Bool.false_ne_true hSL)]
  rw [if_pos htext]
  have hSLtext : findSub ("Suggested Laws:" : String).data text.data = none := by
    cases hf : findSub ("Suggested Laws:" : String).data text.data with
    | none => rfl
    | some j =>
      unfold pyIn at hs
      rw [hf] at hs
      simp at hs
  have hSLp : findSub ("Suggested Laws:" : String).data p.data = none := by
    apply findSub_none_of_append (r := ("Recommended Actions:" : String).data ++ q.data)
    have hpq : p.data ++ (("Recommended Actions:" : String).data ++ q.data) = text.data := by
      rw [hdecomp, String.data_append, String.data_append, List.append_assoc]
    rw [hpq]
    exact hSLtext
  have hrepl : pyReplace p "Suggested Laws:" "" = p := by
    unfold pyReplace
    rw [pyReplaceL_of_none hSLp]
  rw [hsplit]
  simp [hrepl]

theorem analyze_fir_actions_label_only_witness :
    ("Recommended Actions: file a complaint" : String)
        = "" ++ "Recommended Actions:" ++ " file a complaint" ∧
    (analyze_fir (some "key") ["gemini-1.5-flash"]
        (fun _ _ => .ok ⟨some "Recommended Actions: file a complaint", "r"⟩)
        "desc").toPair = ("", "file a complaint") := by
  have h := analyze_fir_actions_label_only "key" "gemini-1.5-flash" "desc" "r"
    (by decide) (by decide) "Recommended Actions: file a complaint"
    "" " file a complaint" (by decide) (by decide)
  exact ⟨h.1, h.2.trans (by decide)⟩

/-! ### Claim C2 -/

/-- C2 counterexample: for the reply
`"Suggested Laws:A\nRecommended Actions:B\nRecommended Actions:C"`, which
contains both labels in order, the code returns actions `"B"` — the
segment between the first two occurrences of `"Recommended Actions:"` —
not the trimmed substring after that label (`"B\nRecommended
Actions:C"`, or `"C"` on the other reading of a repeated label), so the
claim's universally quantified description of the actions field is
false. -/
theorem analyze_fir_second_label_repeated :
    (analyze_fir (some "key") ["gemini-1.5-flash"]
      (fun _ _ => .ok
        ⟨some "Suggested Laws:A\nRecommended Actions:B\nRecommended Actions:C", "r"⟩)
      "desc").toPair = ("A", "B") ∧
    ("B" : String) ≠ pyStrip "B\nRecommended Actions:C" ∧
    ("B" : String) ≠ pyStrip "C" := by
  exact ⟨by decide, by decide, by decide⟩

/-- C2 (amended): when each label occurs exactly once in the reply text
(each `pySplit` yields exactly two parts) and the `"Suggested Laws:"`
occurrence precedes the `"Recommended Actions:"` occurrence, the reply
decomposes as `p ++ "Suggested Laws:" ++ b ++ "Recommended Actions:" ++ c`
and `analyze_fir` returns laws equal to the trimmed text `b` strictly
between the two labels and actions equal to the trimmed text after
`"Recommended Actions:"`; when a label occurs more than once the
split-based parse instead takes the segment between its first two
occurrences. -/
theorem analyze_fir_both_labels_unique_parse (k m d r' : String) (hk : k ≠ "")
    (hm : m ≠ "") (text p q b c u v : String)
    (h1 : pySplit "Suggested Laws:" text = [p, q])
    (h2 : pySplit "Recommended Actions:" text = [u, v])
    (h3 : pySplit "Recommended Actions:" q = [b, c]) :
    text = p ++ "Suggested Laws:" ++ b ++ "Recommended Actions:" ++ c ∧
    text = u ++ "Recommended Actions:" ++ v ∧
    (analyze_fir (some k) [m] (fun _ _ => .ok ⟨some text, r'⟩) d).toPair
      = (pyStrip b, pyStrip v) := by
  have htext : text ≠ "" := by
    intro he
    rw [he] at h1
    have hε : pySplit "Suggested Laws:" "" = [""] := rfl
    rw [hε] at h1
    simp at h1
  have hd1 : text = p ++ "Suggested Laws:" ++ q := by
    apply str_ext
    have hj := @joinSep_pySplitL ("Suggested Laws:" : String).data
      (by decide) text.data
    rw [pySplit_eq_two h1] at hj
    rw [String.data_append, String.data_append]
    exact hj.symm
  have hd2 : text = u ++ "Recommended Actions:" ++ v := by
    apply str_ext
    have hj := @joinSep_pySplitL ("Recommended Actions:" : String).data
      (by decide) text.data
    rw [pySplit_eq_two h2] at hj
    rw [String.data_append, String.data_append]
    exact hj.symm
  have hd3 : q = b ++ "Recommended Actions:" ++ c := by
    apply str_ext
    have hj := @joinSep_pySplitL ("Recommended Actions:" : String).data
      (by decide) q.data
    rw [pySplit_eq_two h3] at hj
    rw [String.data_append, String.data_append]
    exact hj.symm
  refine ⟨by rw [hd1, hd3]; simp [String.append_assoc], hd2, ?_⟩
  have hfirst := @analyze_loop_first_ok (fun _ _ => .ok ⟨some text, r'⟩)
    (fir_prompt d) [] [] m [] ⟨some text, r'⟩ (by simp) hm rfl
  rw [analyze_fir, if_neg (by simpa using hk)]
  rw [List.nil_append] at hfirst
  rw [hfirst]
  show parse_response ⟨some text, r'⟩ = (pyStrip b, pyStrip v)
  have hresp : parse_response ⟨some text, r'⟩ = parse_text text := by
    simp only [parse_response, Option.getD_some, if_neg htext]
  rw [hresp, parse_text]
  rw [if_pos ⟨htext, pyIn_of_split_two h1, pyIn_of_split_two h2⟩]
  rw [h1, h2]
  simp only [List.getD_cons_zero, List.getD_cons_succ]
  rw [h3]
  simp only [List.getD_cons_zero]

theorem analyze_fir_both_labels_unique_parse_witness :
    ("Suggested Laws: IPC 420\nRecommended Actions: File complaint" : String)
        = "" ++ "Suggested Laws:" ++ " IPC 420\n" ++ "Recommended Actions:"
            ++ " File complaint" ∧
    ("Suggested Laws: IPC 420\nRecommended Actions: File complaint" : String)
        = "Suggested Laws: IPC 420\n" ++ "Recommended Actions:" ++ " File complaint" ∧
    (analyze_fir (some "key") ["gemini-1.5-flash"]
        (fun _ _ => .ok
          ⟨some "Suggested Laws: IPC 420\nRecommended Actions: File complaint", "r"⟩)
        "desc").toPair = ("IPC 420", "File complaint") := by
  have h := analyze_fir_both_labels_unique_parse "key" "gemini-1.5-flash" "desc" "r"
    (by decide) (by decide)
    "Suggested Laws: IPC 420\nRecommended Actions: File complaint"
    "" " IPC 420\nRecommended Actions: File complaint"
    " IPC 420\n" " File complaint"
    "Suggested Laws: IPC 420\n" " File complaint"
    (by decide) (by decide) (by decide)
  exact ⟨h.1, h.2.1, h.2.2.trans (by decide)⟩

/-! ### Claim C8 -/

theorem lines_of_wrapped_join_bound {s : List Char} {l : String}
    (hl : l ∈ pySplit "\n" (String.mk (joinSep ['\n'] (twWrap 100 s)))) :
    l.length ≤ 100 := by
  have hle := twWrap_length_le (w := 100) (by norm_num) (s := s)
  have hnl := twWrap_no_newline (w := 100) (s := s)
  unfold pySplit at hl
  cases hcase : twWrap 100 s with
  | nil =>
    rw [hcase] at hl
    have hnilred : (pySplitL ("\n" : String).data
        (String.mk (joinSep ['\n'] [])).data).map String.mk = [""] := rfl
    rw [hnilred] at hl
    rw [List.mem_singleton.mp hl]
    decide
  | cons a rest =>
    rw [hcase] at hl
    have heq : pySplitL ("\n" : String).data
        (String.mk (joinSep ['\n'] (a :: rest))).data = a :: rest := by
      show pySplitL ['\n'] (joinSep ['\n'] (a :: rest)) = a :: rest
      exact pySplitL_join_singleton (a :: rest) (by simp)
        (fun l' hl' => hnl l' (hcase ▸ hl'))
    rw [heq] at hl
    rcases List.mem_map.mp hl with ⟨lc, hlc, rfl⟩
    have hlen := hle lc (hcase ▸ hlc)
    simpa using hlen

/-- C8: every line of the output of the renderer's text-wrapping step
(`safe_text` at its wrap width, default 100 characters) has length at
most 100, for every input — including inputs containing a single
whitespace-free token longer than the width, since the `re.sub` pass
first splits any overlong whitespace-free run into width-sized chunks
and the wrapper additionally breaks overlong chunks (`break_long_words`). -/
theorem safe_text_line_width_bound (text : Option String) :
    ((pySplit "\n" (safe_text text)).all fun l => l.length ≤ 100) = true := by
  rw [List.all_eq_true]
  intro l hl
  by_cases h : text.getD "" = ""
  · rw [safe_text, if_pos h] at hl
    have hNA : pySplit "\n" "N/A" = ["N/A"] := rfl
    rw [hNA] at hl
    rw [List.mem_singleton.mp hl]
    decide
  · rw [safe_text, if_neg h] at hl
    simpa using lines_of_wrapped_join_bound hl

/-! ### Claim C7 -/

/-- C7: each of the fourteen rendered field slots whose record field is
absent (so `dict.get` falls back to its default), holds Python `None`
(a SQL NULL), or holds the empty string is rendered as the literal
placeholder `"N/A"`; in particular, rendering a record with all fields
empty yields `"N/A"` in every field slot, and the renderer, modeled as
a total function, does not raise. -/
theorem generate_fir_pdf_missing_field_na (fir : String → Option (Option String))
    (i : Nat) (label key : String) (hf : FIR_FIELDS[i]? = some (label, key))
    (he : fir key = none ∨ fir key = some none ∨ fir key = some (some "")) :
    (generate_fir_pdf fir)[i]? = some (label ++ ":", "N/A") := by
  unfold generate_fir_pdf
  rw [List.getElem?_map, hf]
  simp only [Option.map_some']
  have hval : safe_text (py_dict_get fir key (some "N/A")) = "N/A" := by
    rcases he with h | h | h
    · rw [py_dict_get, h]
      rfl
    · rw [py_dict_get, h]
      rfl
    · rw [py_dict_get, h]
      rfl
  rw [hval]

theorem generate_fir_pdf_missing_field_na_witness :
    (FIR_FIELDS[0]? = some ("Complainant", "name")) ∧
    (generate_fir_pdf (fun _ => some (some "")))[0]? = some ("Complainant:", "N/A") :=
  ⟨rfl, generate_fir_pdf_missing_field_na (fun _ => some (some "")) 0
    "Complainant" "name" rfl (Or.inr (Or.inr rfl))⟩

/-! ### Claim C10 -/

/-- C10: the PDF renderer reads only the fourteen configured field keys
of the input record: two records that agree on those keys — however
much they differ on other keys, in particular the stored
`witness_name` and `witness_contact` fields, or `user_id` and `status`
— render to identical document content, so witness data submitted and
persisted with a report never appears in nor affects the downloaded
PDF. -/
theorem generate_fir_pdf_reads_only_listed_fields
    (f g : String → Option (Option String))
    (h : ∀ k ∈ FIR_FIELDS.map Prod.snd, f k = g k) :
    generate_fir_pdf f = generate_fir_pdf g := by
  unfold generate_fir_pdf
  apply List.map_congr_left
  intro lk hlk
  have hk := h lk.2 (List.mem_map.mpr ⟨lk, hlk, rfl⟩)
  simp [py_dict_get, hk]

theorem generate_fir_pdf_reads_only_listed_fields_witness :
    generate_fir_pdf (fun k =>
        if k = "witness_name" then some (some "Alice Wu")
        else if k = "witness_contact" then some (some "555-0100")
        else if k = "user_id" then some (some "7")
        else if k = "status" then some (some "Analyzed")
        else some (some "x")) =
    generate_fir_pdf (fun k =>
        if k = "witness_name" then none
        else if k = "witness_contact" then some none
        else if k = "user_id" then some (some "8")
        else if k = "status" then some (some "Pending")
        else some (some "x")) :=
  generate_fir_pdf_reads_only_listed_fields _ _ (by decide)

/-! ### Claim C6 -/

/-- C6 counterexample: in the in-memory variant (api/app.py), after a
report is submitted in user "alice"'s session, a download request for
its id by the different logged-in user "bob" is served the report's
full PDF content rather than being rejected — the variant's records
store no owner and its download route checks only that the index
exists — refuting the claim for this route. -/
theorem api_download_fir_cross_user_leak :
    (api_download_fir
        (api_report_submit (some "alice")
          (fun k => if k = "description" then some "CEO embezzled funds" else none)
          "IPC 403" "File a police complaint" [])
        (some "bob") 0).isRedirect = false ∧
    api_download_fir
        (api_report_submit (some "alice")
          (fun k => if k = "description" then some "CEO embezzled funds" else none)
          "IPC 403" "File a police complaint" [])
        (some "bob") 0 =
      .file ["FIR Report", "Name: None", "Company: None",
             "Description: CEO embezzled funds", "Suggested Laws: IPC 403",
             "Recommended Actions: File a police complaint"] "FIR_1.pdf" := by
  constructor
  · rfl
  · rfl

/-- C6 (amended): in the database-backed application (app.py), a
download request by a logged-in user for a report id that does not
exist or is owned by a different user is rejected with a
flash-and-redirect response carrying no report data; the in-memory
variant (api/app.py), whose records store no owner, only bounds-checks
the index and serves any stored report to any logged-in user. -/
theorem download_fir_owner_enforced (db : List FirRow) (uid fid : Nat)
    (h : ∀ row ∈ db, row.id = fid → row.user_id ≠ uid) :
    download_fir db (some uid) fid =
      .redirect "Invalid FIR ID or you do not have permission to download this report." := by
  unfold download_fir
  dsimp only
  have hfind : db.find? (fun r => r.id == fid && r.user_id == uid) = none := by
    rw [List.find?_eq_none]
    intro r hr hpred
    simp only [Bool.and_eq_true, beq_iff_eq] at hpred
    exact h r hr hpred.1 hpred.2
  rw [hfind]

theorem download_fir_owner_enforced_witness :
    download_fir [⟨1, 7, fun _ => none⟩] (some 9) 1 =
      .redirect "Invalid FIR ID or you do not have permission to download this report." :=
  download_fir_owner_enforced [⟨1, 7, fun _ => none⟩] 9 1 (by
    intro row hrow
    rw [List.mem_singleton] at hrow
    subst hrow
    intro _
    decide)

end FirPortal
